import Mathlib

set_option autoImplicit false

/-
Verification development for the collocation-dictionary application
(src/main.py).  The core under study is `TextProcessor.extract_collocations`
(sentence-bounded bigram extraction with morphological filtering) together
with the lexicon graph operations of `LexiconEditor` (merge in `load_file`,
`add_partner`, `remove_partner`, `clear_all`, and the JSON export of
`save_lexicon`).

External collaborators (the NLTK sentence segmenter, the pymorphy3
morphological analyzer, and the NLTK stopword resource) are modelled as
components of an `Env` record; the in-repository logic is translated
directly from the source.
-/

namespace CollocDict

/-- One candidate analysis returned by the morphological analyzer
(pymorphy3 `Parse` record): the normal form, the part-of-speech tag
(`p.tag.POS`, which can be `None`), and the confidence score.  Scores are
modelled as natural numbers; only their relative order is ever used
(`max(parses, key=lambda p: p.score)`). -/
structure Analysis where
  normal_form : String
  pos : Option String
  score : Nat
deriving DecidableEq

/-- The external collaborators of the extractor and the editor:
the stopword resource `russian_stopwords` (NLTK list plus the
in-repository extension, line 38-43 of src/main.py), the morphological
analyzer `morph.parse`, and the sentence segmenter
`sent_tokenize(-, language=russian)`. -/
structure Env where
  stopwords : List String
  parse : String → List Analysis
  segment : String → List String

/-- Python `max(parses, key=lambda p: p.score)` keeps the first element
among ties and replaces the current maximum only on a strictly greater
score. -/
def maxByScore : Analysis → List Analysis → Analysis
  | best, [] => best
  | best, a :: rest => maxByScore (if best.score < a.score then a else best) rest

/-- Selection of the most probable analysis; `none` when the analyzer
returned no analyses (the code guards this case with
`if not parses: continue`). -/
def pickBest : List Analysis → Option Analysis
  | [] => none
  | a :: rest => some (maxByScore a rest)

/-- Model of Python `str.lower` on the alphabets this program touches:
Cyrillic А..Я and Ё are mapped to their lowercase forms, ASCII A..Z
likewise; every other character is unchanged. -/
def ruLower (c : Char) : Char :=
  if 0x410 ≤ c.toNat ∧ c.toNat ≤ 0x42F then Char.ofNat (c.toNat + 0x20)
  else if c.toNat = 0x401 then Char.ofNat 0x451
  else if 0x41 ≤ c.toNat ∧ c.toNat ≤ 0x5A then Char.ofNat (c.toNat + 0x20)
  else c

/-- Lowercasing applied characterwise, as `text.lower()` and
`normal_form.lower()` do. -/
def ruLowerStr (s : String) : String := String.mk (s.data.map ruLower)

/-- The ASCII whitespace characters removed by Python `str.strip`. -/
def isPySpace (c : Char) : Bool :=
  c = ' ' || c = '\t' || c = '\n' || c = '\r' || c = '\x0b' || c = '\x0c'

/-- Model of Python `str.strip()`. -/
def pyStrip (s : String) : String :=
  String.mk (((s.data.dropWhile isPySpace).reverse.dropWhile isPySpace).reverse)

/-- The character class `[а-яё]` of the token regular expression
(line 79 of src/main.py). -/
def isRuAlpha (c : Char) : Bool :=
  (0x430 ≤ c.toNat && c.toNat ≤ 0x44F) || c.toNat = 0x451

/-- Python regex word characters (for the `\b` anchors) restricted to the
alphabets this program touches: ASCII letters and digits, the underscore,
and the Cyrillic block. -/
def isWordChar (c : Char) : Bool :=
  c.isAlpha || c.isDigit || c = '_' || (0x400 ≤ c.toNat && c.toNat ≤ 0x4FF)

/-- Maximal prefix of characters from `[а-яё]`, with the rest of the
input. -/
def takeRuRun : List Char → List Char × List Char
  | [] => ([], [])
  | c :: cs =>
    if isRuAlpha c then
      let (r, rest) := takeRuRun cs
      (c :: r, rest)
    else ([], c :: cs)

/-- Greedy repetition of the regex group `(?:-[а-яё]+)*`: repeatedly
consume a hyphen followed by a nonempty run.  Returns the runs (without
their hyphens) and the rest of the input.  The first argument is
structural fuel. -/
def takeGroups : Nat → List Char → List (List Char) × List Char
  | 0, cs => ([], cs)
  | fuel + 1, cs =>
    match cs with
    | '-' :: cs2 =>
      match takeRuRun cs2 with
      | ([], _) => ([], cs)
      | (c :: r, rest) =>
        let (gs, rest2) := takeGroups fuel rest
        ((c :: r) :: gs, rest2)
    | _ => ([], cs)

/-- Reassemble a matched token from its initial run and its hyphen
groups. -/
def mkTok (r0 : List Char) (gs : List (List Char)) : List Char :=
  r0 ++ (gs.map (fun g => '-' :: g)).flatten

/-- Scanner for `re.findall(r'\b[а-яё]+(?:-[а-яё]+)*\b', sent)`.
The Bool argument records whether the previous character was a word
character (for the leading `\b`); the trailing `\b` holds when the next
character is absent or not a word character.  When the trailing anchor
fails after at least one hyphen group, the regex engine drops the last
group and succeeds at the preceding hyphen; with no group the attempt
fails and scanning resumes after the run.  The first argument is
structural fuel (one unit per recursive step suffices, see
`tokenize`). -/
def scanTokens : Nat → Bool → List Char → List (List Char)
  | 0, _, _ => []
  | _ + 1, _, [] => []
  | fuel + 1, prevW, c :: cs =>
    if isRuAlpha c && !prevW then
      let (r0, rest1) := takeRuRun (c :: cs)
      let (gs, rest2) := takeGroups fuel rest1
      let bOk := match rest2 with
        | [] => true
        | d :: _ => !isWordChar d
      if bOk then mkTok r0 gs :: scanTokens fuel true rest2
      else
        match gs.reverse with
        | [] => scanTokens fuel true rest1
        | lastG :: gsRevRest =>
          mkTok r0 gsRevRest.reverse :: scanTokens fuel true ('-' :: (lastG ++ rest2))
    else scanTokens fuel (isWordChar c) cs

/-- `re.findall(r'\b[а-яё]+(?:-[а-яё]+)*\b', sent)` (line 79). -/
def tokenize (s : String) : List String :=
  (scanTokens (s.data.length + 1) false s.data).map String.mk

/-- The degenerate-lemma artifacts filtered during extraction
(line 98 of src/main.py). -/
def artifactLemmas : List String := ["нибыть", "либыть", "тобыть", "кое"]

/-- The artifacts rejected by manual addition (line 295 of src/main.py);
note this set is smaller than `artifactLemmas`. -/
def artifactManual : List String := ["нибыть", "либыть", "тобыть"]

/-- The content part-of-speech categories kept by extraction
(line 102 of src/main.py). -/
def contentPOS : List String := ["NOUN", "VERB", "INFN", "ADJF", "ADJS", "PRTF", "PRTS"]

/-- The per-token filtering and normalization of the extraction loop
(lines 82-103 of src/main.py): length gate, surface stopword gate,
morphological analysis with max-score selection, artifact and stopword
gate on the normal form, and the category gate.  Returns the surviving
lemma, or `none` when the token is dropped. -/
def lemmaOfWord (env : Env) (word : String) : Option String :=
  if word.length < 4 ∨ word ∈ env.stopwords then none
  else
    match pickBest (env.parse word) with
    | none => none
    | some parsed =>
      let lem := ruLowerStr parsed.normal_form
      if lem ∈ artifactLemmas ∨ lem ∈ env.stopwords then none
      else
        match parsed.pos with
        | some p => if p ∈ contentPOS then some lem else none
        | none => none

/-- The lemma sequence of one sentence: tokens in order, dropped tokens
absent (lines 81-103). -/
def sentLemmas (env : Env) (sent : String) : List String :=
  (tokenize sent).filterMap (lemmaOfWord env)

/-- A set of strings represented as its insertion-ordered list of
distinct elements (Python `set`). -/
abbrev PSet := List String

/-- A string-keyed mapping represented as its insertion-ordered
association list (Python `dict`); used both for the candidate mapping of
the extractor (`colloc_dict`) and for `self.lexicon`. -/
abbrev Lexicon := List (String × PSet)

/-- Python `set.add`. -/
def setAdd (s : PSet) (x : String) : PSet := if x ∈ s then s else s ++ [x]

/-- Python `set.discard`. -/
def setDiscard (s : PSet) (x : String) : PSet := s.filter (fun y => y ≠ x)

/-- Lookup of the value stored under a key; the empty set when the key is
absent (which is also what `defaultdict(set)` materializes on first
access, and what `lexicon.get(lemma, [])` yields). -/
def getSet : Lexicon → String → PSet
  | [], _ => []
  | e :: rest, k => if e.1 = k then e.2 else getSet rest k

/-- Python `key in dict`. -/
def hasKey : Lexicon → String → Bool
  | [], _ => false
  | e :: rest, k => if e.1 = k then true else hasKey rest k

/-- Python `dict[key] = value`: overwrite in place when present, append
at the end when absent. -/
def dictSet : Lexicon → String → PSet → Lexicon
  | [], k, s => [(k, s)]
  | e :: rest, k, s => if e.1 = k then (k, s) :: rest else e :: dictSet rest k s

/-- Python `del dict[key]`. -/
def delKey : Lexicon → String → Lexicon
  | [], _ => []
  | e :: rest, k => if e.1 = k then rest else e :: delKey rest k

/-- `if key not in dict: dict[key] = set()`. -/
def ensureKey (lex : Lexicon) (k : String) : Lexicon :=
  if hasKey lex k then lex else lex ++ [(k, [])]

/-- The key sequence of a mapping, in insertion order. -/
def keys (lex : Lexicon) : List String := lex.map Prod.fst

/-- Well-formedness of the association-list representation: a Python
dict never holds the same key twice. -/
def KeysNodup (lex : Lexicon) : Prop := (keys lex).Nodup

/-- `colloc_dict[k].add(v)` on a `defaultdict(set)`. -/
def dAdd (m : Lexicon) (k v : String) : Lexicon := dictSet m k (setAdd (getSet m k) v)

/-- The guard of the bigram loop (line 108):
`a != b and len(a) >= 4 and len(b) >= 4`. -/
def EmitCond (p : String × String) : Prop :=
  p.1 ≠ p.2 ∧ 4 ≤ p.1.length ∧ 4 ≤ p.2.length

/-- One iteration of the bigram loop (lines 106-110): the pair is
emitted symmetrically exactly when the two lemmas differ and both have
length at least 4. -/
def emitPair (m : Lexicon) (p : String × String) : Lexicon :=
  if p.1 ≠ p.2 ∧ 4 ≤ p.1.length ∧ 4 ≤ p.2.length then dAdd (dAdd m p.1 p.2) p.2 p.1 else m

/-- The consecutive pairs `(lemmas[i], lemmas[i+1])` of the bigram loop. -/
def consecPairs (l : List String) : List (String × String) := l.zip l.tail

/-- The bigram loop of one sentence (lines 105-110). -/
def addPairs (m : Lexicon) (lemmas : List String) : Lexicon :=
  (consecPairs lemmas).foldl emitPair m

/-- `TextProcessor.extract_collocations` (lines 63-112): lowercase the
document, segment into sentences, and run the per-sentence filtering and
bigram loop into one shared candidate mapping. -/
def extract_collocations (env : Env) (text : String) : Lexicon :=
  (env.segment (ruLowerStr text)).foldl (fun m sent => addPairs m (sentLemmas env sent)) []

/-- The content error raised by the loading pipeline on an empty or
whitespace-only document (line 221-222 of src/main.py). -/
inductive ContentError
  | emptyDocument
deriving DecidableEq

/-- The extraction step of `load_file` (lines 219-224): raise the content
error when the document text strips to nothing, otherwise run
`extract_collocations` (which is total). -/
def extractDoc (env : Env) (text : String) : Except ContentError Lexicon :=
  if pyStrip text = "" then .error .emptyDocument
  else .ok (extract_collocations env text)

/-- Merging one candidate entry into the lexicon (lines 227-230):
`if lemma not in self.lexicon: self.lexicon[lemma] = set()` followed by
`self.lexicon[lemma].update(partners)`. -/
def mergeEntry (lex : Lexicon) (e : String × PSet) : Lexicon :=
  dictSet lex e.1 (e.2.foldl setAdd (getSet lex e.1))

/-- The merge loop of `load_file` (lines 226-230). -/
def mergeColloc (lex : Lexicon) (cand : Lexicon) : Lexicon :=
  cand.foldl mergeEntry lex

/-- Outcome of `LexiconEditor.add_partner` (lines 273-312).  The four
rejection outcomes are the validation warnings; `crashedKeyError` is the
uncaught `KeyError` of `self.lexicon[lemma].add(...)` when the selected
lemma is not a key (unreachable through the user interface, where the
lemma always comes from the displayed key list). -/
inductive AddOutcome
  | rejectedShort
  | rejectedNoParse
  | rejectedStop
  | rejectedSelf
  | crashedKeyError
  | ok
deriving DecidableEq

/-- The symmetric insertion of lines 306-307:
`self.lexicon[lemma].add(partner_lemma)` followed by
`self.lexicon[partner_lemma].add(lemma)`. -/
def addEdge (lex : Lexicon) (lemmaKey pl : String) : Lexicon :=
  let lex2 := dictSet lex lemmaKey (setAdd (getSet lex lemmaKey) pl)
  dictSet lex2 pl (setAdd (getSet lex2 pl) lemmaKey)

/-- `LexiconEditor.add_partner` (lines 273-312) as a state transformer on
the lexicon, given the selected lemma and the raw partner input text.
Returns the outcome and the lexicon state afterwards (which, in the
`crashedKeyError` case, already holds the partner key with an empty
set, lines 304-305 having executed). -/
def addPartner (env : Env) (lex : Lexicon) (lemmaKey inputText : String) :
    AddOutcome × Lexicon :=
  let partner_text := ruLowerStr (pyStrip inputText)
  if partner_text = "" ∨ partner_text.length < 4 then (.rejectedShort, lex)
  else
    match pickBest (env.parse partner_text) with
    | none => (.rejectedNoParse, lex)
    | some p =>
      let partner_lemma := ruLowerStr p.normal_form
      if partner_lemma ∈ env.stopwords ∨ partner_lemma ∈ artifactManual then
        (.rejectedStop, lex)
      else if lemmaKey = partner_lemma then (.rejectedSelf, lex)
      else
        let lex1 := ensureKey lex partner_lemma
        if hasKey lex1 lemmaKey then (.ok, addEdge lex1 lemmaKey partner_lemma)
        else (.crashedKeyError, lex1)

/-- The validation-rejection outcomes of `add_partner` (as opposed to
success or the key error). -/
def IsReject (o : AddOutcome) : Prop :=
  o = .rejectedShort ∨ o = .rejectedNoParse ∨ o = .rejectedStop ∨ o = .rejectedSelf

/-- Outcome of `LexiconEditor.remove_partner`: `ok`, or an uncaught
`KeyError` at either of the two indexings (lines 325-326). -/
inductive RemOutcome
  | crashedLemma
  | crashedPartner
  | ok
deriving DecidableEq

/-- `LexiconEditor.remove_partner` (lines 314-336): discard the partner
from the lemma set and vice versa, then delete either key whose set
became empty.  In the `crashedPartner` case the first discard has
already executed (line 325 precedes line 326). -/
def removePartner (lex : Lexicon) (lemmaKey partner : String) : RemOutcome × Lexicon :=
  if hasKey lex lemmaKey then
    let lex1 := dictSet lex lemmaKey (setDiscard (getSet lex lemmaKey) partner)
    if hasKey lex1 partner then
      let lex2 := dictSet lex1 partner (setDiscard (getSet lex1 partner) lemmaKey)
      let lex3 := if hasKey lex2 lemmaKey ∧ getSet lex2 lemmaKey = [] then delKey lex2 lemmaKey else lex2
      let lex4 := if hasKey lex3 partner ∧ getSet lex3 partner = [] then delKey lex3 partner else lex3
      (.ok, lex4)
    else (.crashedPartner, lex1)
  else (.crashedLemma, lex)

/-- Codepoint-lexicographic string order, as Python string comparison
(and hence `sorted`) uses. -/
def charsLe : List Char → List Char → Bool
  | [], _ => true
  | _ :: _, [] => false
  | a :: as, b :: bs => if a < b then true else if b < a then false else charsLe as bs

/-- String comparison for `sorted`. -/
def strLe (a b : String) : Bool := charsLe a.data b.data

/-- Insertion into a sorted list. -/
def insertLe (x : String) : List String → List String
  | [] => [x]
  | y :: ys => if strLe x y then x :: y :: ys else y :: insertLe x ys

/-- `sorted(list(v))` on a partner set. -/
def sortedPartners (l : List String) : List String := l.foldr insertLe []

/-- The serialization step of `save_lexicon` (line 351):
`{k: sorted(list(v)) for k, v in self.lexicon.items()}` — each value
list is sorted, the keys stay in the insertion order of the dict
(`json.dump` is called without key sorting and preserves that order). -/
def serializeLexicon (lex : Lexicon) : List (String × List String) :=
  lex.map (fun e => (e.1, sortedPartners e.2))

/-- The symmetry invariant of the lexicon graph. -/
def Sym (lex : Lexicon) : Prop :=
  ∀ a b : String, b ∈ getSet lex a → a ∈ getSet lex b

/-- The no-isolated-node invariant: a key exists only with a nonempty
partner set. -/
def NoIso (lex : Lexicon) : Prop :=
  ∀ k : String, hasKey lex k = true → getSet lex k ≠ []

/-- Lexicon states reachable from the empty lexicon through the editor
operations.  The merge step is the successful path of `load_file`
(extraction of a document that does not strip to nothing); the add and
remove steps carry the preconditions the user interface establishes (the
edited lemma is always a displayed key, and the removed partner is taken
from the displayed partner list of that lemma). -/
inductive Reachable : Lexicon → Prop
  | empty : Reachable []
  | mergeStep (env : Env) (text : String) {lex : Lexicon} :
      Reachable lex → pyStrip text ≠ "" →
      Reachable (mergeColloc lex (extract_collocations env text))
  | addStep (env : Env) (lemmaKey inputText : String) {lex : Lexicon} :
      Reachable lex → hasKey lex lemmaKey = true →
      Reachable (addPartner env lex lemmaKey inputText).2
  | removeStep (lemmaKey partner : String) {lex : Lexicon} :
      Reachable lex → hasKey lex lemmaKey = true → partner ∈ getSet lex lemmaKey →
      Reachable (removePartner lex lemmaKey partner).2
  | clearStep {lex : Lexicon} : Reachable lex → Reachable []

/-! Concrete instances of the external collaborators, used for
witnesses and counterexamples. -/

/-- The NLTK Russian stopword list (`stopwords.words('russian')`). -/
def nltkStop : List String :=
  ["и", "в", "во", "не", "что", "он", "на", "я", "с", "со", "как", "а", "то",
   "все", "она", "так", "его", "но", "да", "ты", "к", "у", "же", "вы", "за",
   "бы", "по", "ее", "мне", "было", "вот", "от", "меня", "еще", "нет", "о",
   "из", "ему", "теперь", "когда", "даже", "ну", "вдруг", "ли", "если", "уже",
   "или", "ни", "быть", "был", "него", "до", "вас", "нибудь", "опять", "уж",
   "вам", "ведь", "там", "потом", "себя", "ничего", "ей", "может", "они",
   "тут", "где", "есть", "надо", "ней", "для", "мы", "тебя", "их", "чем",
   "была", "сам", "чтоб", "без", "будто", "чего", "раз", "тоже", "себе",
   "под", "будет", "ж", "тогда", "кто", "этот", "того", "потому", "этого",
   "какой", "совсем", "ним", "здесь", "этом", "один", "почти", "мой", "тем",
   "чтобы", "нее", "сейчас", "были", "куда", "зачем", "всех", "никогда",
   "можно", "при", "наконец", "два", "об", "другой", "хоть", "после", "над",
   "больше", "тот", "через", "эти", "нас", "про", "всего", "них", "какая",
   "много", "разве", "три", "эту", "моя", "впрочем", "хорошо", "свою",
   "этой", "перед", "иногда", "лучше", "чуть", "том", "нельзя", "такой",
   "им", "более", "всегда", "конечно", "всю", "между"]

/-- `russian_stopwords` after the in-repository extension
(lines 38-43 of src/main.py). -/
def russian_stopwords : List String :=
  nltkStop ++ ["бы", "же", "ли", "быть", "нибудь", "кое", "то", "либо",
               "таки", "нибыть", "либыть", "тобыть", "когда-нибудь", "где-нибудь"]

/-- Model of `pymorphy3.MorphAnalyzer().parse` on the words exercised by
the concrete witnesses and counterexamples, faithful to the actual
analyzer output on those words (scores scaled to naturals preserving
order; for `дома` the noun reading `дом` has the greater score, the
adverb reading the smaller). -/
def pymorphyTable : String → List Analysis := fun w =>
  if w = "кошка" then [⟨"кошка", some "NOUN", 100⟩]
  else if w = "спит" then [⟨"спать", some "VERB", 100⟩]
  else if w = "собака" then [⟨"собака", some "NOUN", 100⟩]
  else if w = "бежит" then [⟨"бежать", some "VERB", 100⟩]
  else if w = "книга" then [⟨"книга", some "NOUN", 100⟩]
  else if w = "стол" then [⟨"стол", some "NOUN", 100⟩]
  else if w = "дома" then [⟨"дом", some "NOUN", 75⟩, ⟨"дома", some "ADVB", 25⟩]
  else if w = "чтобы" then [⟨"чтобы", some "CONJ", 100⟩]
  else if w = "спать" then [⟨"спать", some "INFN", 100⟩]
  else if w = "бежать" then [⟨"бежать", some "INFN", 100⟩]
  else []

/-- Model of `sent_tokenize(-, language='russian')` on the documents
exercised concretely: the two-sentence witness document splits at the
full stop; single-clause inputs come back as one sentence. -/
def nltkSegment : String → List String := fun s =>
  if s = "кошка спит. собака бежит." then ["кошка спит.", "собака бежит."]
  else [s]

/-- The concrete environment: real stopword resource, analyzer and
segmenter models. -/
def envRu : Env := ⟨russian_stopwords, pymorphyTable, nltkSegment⟩

/-- The two-sentence witness document of the specification. -/
def docCats : String := "Кошка спит. Собака бежит."

/-- A reachable one-edge lexicon built by merging the extraction of a
one-sentence document. -/
def lexDog : Lexicon := mergeColloc [] (extract_collocations envRu "собака бежит")

/-- A small lexicon containing the lemma `книга`, used by the manual-edit
counterexamples. -/
def lexBook : Lexicon := [("книга", ["стол"]), ("стол", ["книга"])]

/-- An environment whose analyzer returns an analysis with no
part-of-speech tag for the word `тест`, demonstrating that manual
addition never consults the category. -/
def envNoPos : Env :=
  ⟨russian_stopwords,
   fun w => if w = "тест" then [⟨"тест", none, 100⟩] else pymorphyTable w,
   nltkSegment⟩


/-! Basic lemmas about the set and dictionary primitives. -/

theorem mem_setAdd {s : PSet} {v x : String} : x ∈ setAdd s v ↔ x ∈ s ∨ x = v := by
  unfold setAdd
  split
  · constructor
    · exact fun h => Or.inl h
    · rintro (h | rfl)
      · exact h
      · assumption
  · simp [List.mem_append]

theorem setAdd_ne_nil (s : PSet) (v : String) : setAdd s v ≠ [] := by
  unfold setAdd
  split
  · intro h
    subst h
    simp_all
  · simp

theorem setAdd_eq_self {s : PSet} {v : String} (h : v ∈ s) : setAdd s v = s := by
  unfold setAdd
  simp [h]

theorem mem_foldl_setAdd {ps : List String} {s : PSet} {x : String} :
    x ∈ ps.foldl setAdd s ↔ x ∈ s ∨ x ∈ ps := by
  induction ps generalizing s with
  | nil => simp
  | cons y ys ih =>
    simp only [List.foldl_cons, ih, mem_setAdd, List.mem_cons]
    tauto

theorem foldl_setAdd_noop {ps : List String} {s : PSet} (h : ∀ x ∈ ps, x ∈ s) :
    ps.foldl setAdd s = s := by
  induction ps with
  | nil => rfl
  | cons y ys ih =>
    simp only [List.foldl_cons]
    rw [setAdd_eq_self (h y (by simp))]
    exact ih fun x hx => h x (by simp [hx])

theorem mem_setDiscard {s : PSet} {x y : String} :
    x ∈ setDiscard s y ↔ x ∈ s ∧ x ≠ y := by
  unfold setDiscard
  simp [List.mem_filter]

theorem setDiscard_idem (s : PSet) (y : String) :
    setDiscard (setDiscard s y) y = setDiscard s y := by
  unfold setDiscard
  rw [List.filter_filter]
  simp

theorem getSet_dictSet (m : Lexicon) (k : String) (s : PSet) (a : String) :
    getSet (dictSet m k s) a = if k = a then s else getSet m a := by
  induction m with
  | nil => simp [dictSet, getSet]
  | cons e rest ih =>
    by_cases h1 : e.1 = k
    · subst h1
      simp only [dictSet, if_pos rfl, getSet]
      by_cases h2 : e.1 = a <;> simp [h2]
    · simp only [dictSet, if_neg h1, getSet]
      by_cases h2 : e.1 = a
      · have : ¬ k = a := fun h => h1 (h2.trans h.symm)
        simp [h2, this]
      · simp [h2, ih]

theorem hasKey_dictSet (m : Lexicon) (k : String) (s : PSet) (a : String) :
    hasKey (dictSet m k s) a = if k = a then true else hasKey m a := by
  induction m with
  | nil => simp [dictSet, hasKey]
  | cons e rest ih =>
    by_cases h1 : e.1 = k
    · subst h1
      simp only [dictSet, if_pos rfl, hasKey]
      by_cases h2 : e.1 = a <;> simp [h2]
    · simp only [dictSet, if_neg h1, hasKey]
      by_cases h2 : e.1 = a
      · have : ¬ k = a := fun h => h1 (h2.trans h.symm)
        simp [h2, this]
      · simp [h2, ih]

theorem keys_dictSet (m : Lexicon) (k : String) (s : PSet) :
    keys (dictSet m k s) = if hasKey m k then keys m else keys m ++ [k] := by
  induction m with
  | nil => simp [dictSet, hasKey, keys]
  | cons e rest ih =>
    by_cases h1 : e.1 = k
    · simp [dictSet, hasKey, h1, keys]
    · simp only [dictSet, if_neg h1, hasKey, keys, List.map_cons]
      rw [show (keys (dictSet rest k s)) = List.map Prod.fst (dictSet rest k s) from rfl] at ih
      rw [ih]
      by_cases h2 : hasKey rest k <;> simp [h1, h2, keys]

theorem hasKey_iff_mem_keys {lex : Lexicon} {k : String} :
    hasKey lex k = true ↔ k ∈ keys lex := by
  induction lex with
  | nil => simp [hasKey, keys]
  | cons e rest ih =>
    by_cases h : e.1 = k
    · simp [hasKey, h, keys]
    · simp only [hasKey, if_neg h]
      rw [ih]
      simp only [keys, List.map_cons, List.mem_cons]
      constructor
      · exact fun hm => Or.inr hm
      · rintro (hm | hm)
        · exact absurd hm.symm h
        · exact hm

theorem hasKey_eq_false_iff {lex : Lexicon} {k : String} :
    hasKey lex k = false ↔ k ∉ keys lex := by
  rw [← hasKey_iff_mem_keys]
  cases h : hasKey lex k <;> simp

theorem nodup_dictSet {m : Lexicon} (h : KeysNodup m) (k : String) (s : PSet) :
    KeysNodup (dictSet m k s) := by
  unfold KeysNodup
  rw [keys_dictSet]
  split
  · exact h
  · rename_i hk
    rw [List.nodup_append]
    refine ⟨h, List.nodup_singleton k, ?_⟩
    intro a ha hb
    simp only [List.mem_singleton] at hb
    subst hb
    exact (hasKey_eq_false_iff.mp (by simpa using hk)) ha

theorem getSet_eq_nil_of_hasKey_eq_false {lex : Lexicon} {k : String}
    (h : hasKey lex k = false) : getSet lex k = [] := by
  induction lex with
  | nil => rfl
  | cons e rest ih =>
    simp only [hasKey] at h
    by_cases h1 : e.1 = k
    · simp [h1] at h
    · simp only [getSet, if_neg h1]
      exact ih (by simpa [h1] using h)

theorem hasKey_of_mem_getSet {lex : Lexicon} {k x : String} (h : x ∈ getSet lex k) :
    hasKey lex k = true := by
  by_contra hc
  rw [getSet_eq_nil_of_hasKey_eq_false (by simpa using hc)] at h
  exact absurd h (List.not_mem_nil x)

theorem getSet_delKey {lex : Lexicon} (hnd : KeysNodup lex) (k a : String) :
    getSet (delKey lex k) a = if k = a then [] else getSet lex a := by
  induction lex with
  | nil => simp [delKey, getSet]
  | cons e rest ih =>
    have hnd2 : KeysNodup rest := (List.nodup_cons.mp hnd).2
    have hkm : e.1 ∉ keys rest := (List.nodup_cons.mp hnd).1
    by_cases h1 : e.1 = k
    · subst h1
      simp only [delKey, if_pos rfl]
      by_cases h2 : e.1 = a
      · subst h2
        rw [if_pos rfl]
        exact getSet_eq_nil_of_hasKey_eq_false (hasKey_eq_false_iff.mpr hkm)
      · simp [getSet, h2, fun h : e.1 = a => h2 h]
    · simp only [delKey, if_neg h1, getSet]
      by_cases h2 : e.1 = a
      · have : ¬ k = a := fun h => h1 (h2.trans h.symm)
        simp [h2, this]
      · simp [h2, ih hnd2]

theorem hasKey_delKey {lex : Lexicon} (hnd : KeysNodup lex) (k a : String) :
    hasKey (delKey lex k) a = if k = a then false else hasKey lex a := by
  induction lex with
  | nil => simp [delKey, hasKey]
  | cons e rest ih =>
    have hnd2 : KeysNodup rest := (List.nodup_cons.mp hnd).2
    have hkm : e.1 ∉ keys rest := (List.nodup_cons.mp hnd).1
    by_cases h1 : e.1 = k
    · subst h1
      simp only [delKey, if_pos rfl]
      by_cases h2 : e.1 = a
      · subst h2
        rw [if_pos rfl]
        exact hasKey_eq_false_iff.mpr hkm
      · simp [hasKey, h2, fun h : e.1 = a => h2 h]
    · simp only [delKey, if_neg h1, hasKey]
      by_cases h2 : e.1 = a
      · have : ¬ k = a := fun h => h1 (h2.trans h.symm)
        simp [h2, this]
      · simp [h2, ih hnd2]

theorem keys_delKey_sublist (lex : Lexicon) (k : String) :
    (keys (delKey lex k)).Sublist (keys lex) := by
  induction lex with
  | nil => simp [delKey, keys]
  | cons e rest ih =>
    by_cases h1 : e.1 = k
    · simp only [delKey, if_pos h1, keys, List.map_cons]
      exact (List.sublist_cons_self e.1 (keys rest)).trans (List.Sublist.refl _) |>.trans
        (by exact List.Sublist.refl _) |>.trans (by exact List.Sublist.refl _)
    · simp only [delKey, if_neg h1, keys, List.map_cons]
      exact List.Sublist.cons₂ e.1 ih

theorem nodup_delKey {lex : Lexicon} (hnd : KeysNodup lex) (k : String) :
    KeysNodup (delKey lex k) :=
  List.Nodup.sublist (keys_delKey_sublist lex k) hnd

theorem hasKey_append (l1 l2 : Lexicon) (a : String) :
    hasKey (l1 ++ l2) a = (hasKey l1 a || hasKey l2 a) := by
  induction l1 with
  | nil => simp [hasKey]
  | cons e rest ih =>
    simp only [List.cons_append, hasKey]
    by_cases h : e.1 = a <;> simp [h, ih]

theorem getSet_append (l1 l2 : Lexicon) (a : String) :
    getSet (l1 ++ l2) a = if hasKey l1 a then getSet l1 a else getSet l2 a := by
  induction l1 with
  | nil => simp [getSet, hasKey]
  | cons e rest ih =>
    simp only [List.cons_append, getSet, hasKey]
    by_cases h : e.1 = a <;> simp [h, ih]

theorem getSet_ensureKey (lex : Lexicon) (k a : String) :
    getSet (ensureKey lex k) a = getSet lex a := by
  unfold ensureKey
  split
  · rfl
  · rename_i hk
    rw [getSet_append]
    split
    · rfl
    · rename_i ha
      simp only [getSet]
      by_cases h2 : k = a
      · subst h2
        rw [if_pos rfl]
        exact (getSet_eq_nil_of_hasKey_eq_false (by simpa using ha)).symm
      · rw [if_neg h2]
        exact (getSet_eq_nil_of_hasKey_eq_false (by simpa using ha)).symm

theorem hasKey_ensureKey (lex : Lexicon) (k a : String) :
    hasKey (ensureKey lex k) a = if k = a then true else hasKey lex a := by
  unfold ensureKey
  split
  · rename_i hk
    by_cases h2 : k = a
    · subst h2
      simp [hk]
    · simp [h2]
  · rw [hasKey_append]
    simp only [hasKey]
    by_cases h2 : k = a <;> simp [h2]

theorem keys_ensureKey (lex : Lexicon) (k : String) :
    keys (ensureKey lex k) = if hasKey lex k then keys lex else keys lex ++ [k] := by
  unfold ensureKey
  split <;> simp_all [keys]

theorem nodup_ensureKey {lex : Lexicon} (hnd : KeysNodup lex) (k : String) :
    KeysNodup (ensureKey lex k) := by
  unfold KeysNodup
  rw [keys_ensureKey]
  split
  · exact hnd
  · rename_i hk
    rw [List.nodup_append]
    refine ⟨hnd, List.nodup_singleton k, ?_⟩
    intro a ha hb
    simp only [List.mem_singleton] at hb
    subst hb
    exact (hasKey_eq_false_iff.mp (by simpa using hk)) ha

theorem mem_getSet_iff_entry {lex : Lexicon} {k x : String} (hnd : KeysNodup lex) :
    x ∈ getSet lex k ↔ ∃ ps, (k, ps) ∈ lex ∧ x ∈ ps := by
  induction lex with
  | nil => simp [getSet]
  | cons e rest ih =>
    have hnd2 : KeysNodup rest := (List.nodup_cons.mp hnd).2
    have hkm : e.1 ∉ keys rest := (List.nodup_cons.mp hnd).1
    simp only [getSet, List.mem_cons]
    by_cases h : e.1 = k
    · subst h
      rw [if_pos rfl]
      constructor
      · intro hx
        exact ⟨e.2, Or.inl (by simp), hx⟩
      · rintro ⟨ps, hm | hm, hx⟩
        · have h2 : ps = e.2 := congrArg Prod.snd hm
          exact h2 ▸ hx
        · exfalso
          exact hkm (List.mem_map.mpr ⟨(e.1, ps), hm, rfl⟩)
    · rw [if_neg h, ih hnd2]
      constructor
      · rintro ⟨ps, hm, hx⟩
        exact ⟨ps, Or.inr hm, hx⟩
      · rintro ⟨ps, hm | hm, hx⟩
        · exact absurd (congrArg Prod.fst hm).symm h
        · exact ⟨ps, hm, hx⟩

/-! Characterization of the candidate mapping built by extraction. -/

theorem getSet_dAdd (m : Lexicon) (k v a : String) :
    getSet (dAdd m k v) a = if k = a then setAdd (getSet m k) v else getSet m a := by
  unfold dAdd
  exact getSet_dictSet m k _ a

theorem hasKey_dAdd (m : Lexicon) (k v a : String) :
    hasKey (dAdd m k v) a = if k = a then true else hasKey m a := by
  unfold dAdd
  exact hasKey_dictSet m k _ a

theorem mem_getSet_emitPair {m : Lexicon} {p : String × String} {a b : String} :
    b ∈ getSet (emitPair m p) a ↔
      b ∈ getSet m a ∨ (EmitCond p ∧ ((p.1 = a ∧ b = p.2) ∨ (p.2 = a ∧ b = p.1))) := by
  unfold emitPair
  split
  · rename_i hc
    have hE : EmitCond p := hc
    have hne : ¬ p.1 = p.2 := hc.1
    rw [getSet_dAdd]
    by_cases h1 : p.2 = a
    · subst h1
      rw [if_pos rfl, getSet_dAdd, if_neg hne, mem_setAdd]
      constructor
      · rintro (hm | hb)
        · exact Or.inl hm
        · exact Or.inr ⟨hE, Or.inr ⟨rfl, hb⟩⟩
      · rintro (hm | ⟨-, ⟨hpa, hb⟩ | ⟨-, hb⟩⟩)
        · exact Or.inl hm
        · exact absurd hpa hne
        · exact Or.inr hb
    · rw [if_neg h1, getSet_dAdd]
      by_cases h2 : p.1 = a
      · subst h2
        rw [if_pos rfl, mem_setAdd]
        constructor
        · rintro (hm | hb)
          · exact Or.inl hm
          · exact Or.inr ⟨hE, Or.inl ⟨rfl, hb⟩⟩
        · rintro (hm | ⟨-, ⟨-, hb⟩ | ⟨hpa, hb⟩⟩)
          · exact Or.inl hm
          · exact Or.inr hb
          · exact absurd hpa h1
      · rw [if_neg h2]
        constructor
        · exact fun hm => Or.inl hm
        · rintro (hm | ⟨-, ⟨hpa, -⟩ | ⟨hpa, -⟩⟩)
          · exact hm
          · exact absurd hpa h2
          · exact absurd hpa h1
  · rename_i hc
    have hE : ¬ EmitCond p := hc
    constructor
    · exact fun hm => Or.inl hm
    · rintro (hm | ⟨hcc, -⟩)
      · exact hm
      · exact absurd hcc hE

theorem mem_getSet_foldl_emitPair {ps : List (String × String)} {m : Lexicon} {a b : String} :
    b ∈ getSet (ps.foldl emitPair m) a ↔
      b ∈ getSet m a ∨
        ∃ p ∈ ps, EmitCond p ∧ ((p.1 = a ∧ b = p.2) ∨ (p.2 = a ∧ b = p.1)) := by
  induction ps generalizing m with
  | nil => simp
  | cons q qs ih =>
    simp only [List.foldl_cons]
    rw [ih, mem_getSet_emitPair]
    constructor
    · rintro ((hm | hq) | ⟨p, hp, hc⟩)
      · exact Or.inl hm
      · exact Or.inr ⟨q, by simp, hq⟩
      · exact Or.inr ⟨p, by simp [hp], hc⟩
    · rintro (hm | ⟨p, hp, hc⟩)
      · exact Or.inl (Or.inl hm)
      · rcases List.mem_cons.mp hp with rfl | hp2
        · exact Or.inl (Or.inr hc)
        · exact Or.inr ⟨p, hp2, hc⟩

theorem mem_getSet_addPairs {m : Lexicon} {l : List String} {a b : String} :
    b ∈ getSet (addPairs m l) a ↔
      b ∈ getSet m a ∨
        ∃ p ∈ consecPairs l, EmitCond p ∧ ((p.1 = a ∧ b = p.2) ∨ (p.2 = a ∧ b = p.1)) :=
  mem_getSet_foldl_emitPair

theorem mem_getSet_extract {env : Env} {text : String} {a b : String} :
    b ∈ getSet (extract_collocations env text) a ↔
      ∃ sent ∈ env.segment (ruLowerStr text), ∃ p ∈ consecPairs (sentLemmas env sent),
        EmitCond p ∧ ((p.1 = a ∧ b = p.2) ∨ (p.2 = a ∧ b = p.1)) := by
  have gen : ∀ (sents : List String) (m : Lexicon),
      b ∈ getSet (sents.foldl (fun m2 sent => addPairs m2 (sentLemmas env sent)) m) a ↔
        b ∈ getSet m a ∨ ∃ sent ∈ sents, ∃ p ∈ consecPairs (sentLemmas env sent),
          EmitCond p ∧ ((p.1 = a ∧ b = p.2) ∨ (p.2 = a ∧ b = p.1)) := by
    intro sents
    induction sents with
    | nil => simp
    | cons s ss ih =>
      intro m
      simp only [List.foldl_cons]
      rw [ih, mem_getSet_addPairs]
      constructor
      · rintro ((hm | hq) | ⟨sent, hsent, hc⟩)
        · exact Or.inl hm
        · exact Or.inr ⟨s, by simp, hq⟩
        · exact Or.inr ⟨sent, by simp [hsent], hc⟩
      · rintro (hm | ⟨sent, hsent, hc⟩)
        · exact Or.inl (Or.inl hm)
        · rcases List.mem_cons.mp hsent with rfl | hs2
          · exact Or.inl (Or.inr hc)
          · exact Or.inr ⟨sent, hs2, hc⟩
  rw [show extract_collocations env text =
    (env.segment (ruLowerStr text)).foldl (fun m2 sent => addPairs m2 (sentLemmas env sent)) []
    from rfl, gen]
  simp [getSet]

theorem sym_extract (env : Env) (text : String) : Sym (extract_collocations env text) := by
  intro a b hm
  rw [mem_getSet_extract] at hm ⊢
  obtain ⟨sent, hsent, p, hp, hc, hab⟩ := hm
  refine ⟨sent, hsent, p, hp, hc, ?_⟩
  rcases hab with ⟨h1, h2⟩ | ⟨h1, h2⟩
  · exact Or.inr ⟨h2.symm, h1.symm⟩
  · exact Or.inl ⟨h2.symm, h1.symm⟩

theorem noIso_dAdd {m : Lexicon} (h : NoIso m) (k v : String) : NoIso (dAdd m k v) := by
  intro x hx
  rw [hasKey_dAdd] at hx
  rw [getSet_dAdd]
  by_cases hk : k = x
  · rw [if_pos hk]
    exact setAdd_ne_nil _ _
  · rw [if_neg hk] at hx ⊢
    exact h x hx

theorem noIso_emitPair {m : Lexicon} (h : NoIso m) (p : String × String) :
    NoIso (emitPair m p) := by
  unfold emitPair
  split
  · exact noIso_dAdd (noIso_dAdd h p.1 p.2) p.2 p.1
  · exact h

theorem noIso_extract (env : Env) (text : String) : NoIso (extract_collocations env text) := by
  have gen : ∀ (sents : List String) (m : Lexicon), NoIso m →
      NoIso (sents.foldl (fun m2 sent => addPairs m2 (sentLemmas env sent)) m) := by
    intro sents
    induction sents with
    | nil => exact fun m h => h
    | cons s ss ih =>
      intro m h
      simp only [List.foldl_cons]
      apply ih
      have pairsGen : ∀ (ps : List (String × String)) (m2 : Lexicon), NoIso m2 →
          NoIso (ps.foldl emitPair m2) := by
        intro ps
        induction ps with
        | nil => exact fun m2 h2 => h2
        | cons q qs ihq =>
          intro m2 h2
          exact ihq _ (noIso_emitPair h2 q)
      exact pairsGen _ _ h
  apply gen
  intro k hk
  simp [hasKey] at hk

theorem nodup_dAdd {m : Lexicon} (h : KeysNodup m) (k v : String) : KeysNodup (dAdd m k v) :=
  nodup_dictSet h k _

theorem nodup_emitPair {m : Lexicon} (h : KeysNodup m) (p : String × String) :
    KeysNodup (emitPair m p) := by
  unfold emitPair
  split
  · exact nodup_dAdd (nodup_dAdd h p.1 p.2) p.2 p.1
  · exact h

theorem nodup_extract (env : Env) (text : String) :
    KeysNodup (extract_collocations env text) := by
  have gen : ∀ (sents : List String) (m : Lexicon), KeysNodup m →
      KeysNodup (sents.foldl (fun m2 sent => addPairs m2 (sentLemmas env sent)) m) := by
    intro sents
    induction sents with
    | nil => exact fun m h => h
    | cons s ss ih =>
      intro m h
      simp only [List.foldl_cons]
      apply ih
      have pairsGen : ∀ (ps : List (String × String)) (m2 : Lexicon), KeysNodup m2 →
          KeysNodup (ps.foldl emitPair m2) := by
        intro ps
        induction ps with
        | nil => exact fun m2 h2 => h2
        | cons q qs ihq =>
          intro m2 h2
          exact ihq _ (nodup_emitPair h2 q)
      exact pairsGen _ _ h
  apply gen
  simp [KeysNodup, keys]

/-! Lemmas about the merge of a candidate mapping into the lexicon. -/

theorem getSet_mergeEntry (lex : Lexicon) (e : String × PSet) (a : String) :
    getSet (mergeEntry lex e) a =
      if e.1 = a then e.2.foldl setAdd (getSet lex e.1) else getSet lex a := by
  unfold mergeEntry
  exact getSet_dictSet lex e.1 _ a

theorem hasKey_mergeEntry (lex : Lexicon) (e : String × PSet) (a : String) :
    hasKey (mergeEntry lex e) a = if e.1 = a then true else hasKey lex a := by
  unfold mergeEntry
  exact hasKey_dictSet lex e.1 _ a

theorem mem_getSet_merge {lex c : Lexicon} {k x : String} :
    x ∈ getSet (mergeColloc lex c) k ↔
      x ∈ getSet lex k ∨ ∃ ps, (k, ps) ∈ c ∧ x ∈ ps := by
  induction c generalizing lex with
  | nil => simp [mergeColloc]
  | cons e es ih =>
    simp only [mergeColloc, List.foldl_cons] at ih ⊢
    rw [ih, getSet_mergeEntry]
    by_cases h : e.1 = k
    · rw [if_pos h]
      rw [mem_foldl_setAdd]
      constructor
      · rintro ((hm | hm) | ⟨ps, hps, hx⟩)
        · exact Or.inl (h ▸ hm)
        · exact Or.inr ⟨e.2, List.mem_cons.mpr (Or.inl (by rw [← h])), hm⟩
        · exact Or.inr ⟨ps, List.mem_cons.mpr (Or.inr hps), hx⟩
      · rintro (hm | ⟨ps, hps, hx⟩)
        · exact Or.inl (Or.inl (h ▸ hm))
        · rcases List.mem_cons.mp hps with he | hes
          · have : ps = e.2 := congrArg Prod.snd he
            exact Or.inl (Or.inr (this ▸ hx))
          · exact Or.inr ⟨ps, hes, hx⟩
    · rw [if_neg h]
      constructor
      · rintro (hm | ⟨ps, hps, hx⟩)
        · exact Or.inl hm
        · exact Or.inr ⟨ps, List.mem_cons.mpr (Or.inr hps), hx⟩
      · rintro (hm | ⟨ps, hps, hx⟩)
        · exact Or.inl hm
        · rcases List.mem_cons.mp hps with he | hes
          · exact absurd (congrArg Prod.fst he).symm h
          · exact Or.inr ⟨ps, hes, hx⟩

theorem hasKey_merge (lex c : Lexicon) (k : String) :
    hasKey (mergeColloc lex c) k = (hasKey lex k || hasKey c k) := by
  induction c generalizing lex with
  | nil => simp [mergeColloc, hasKey]
  | cons e es ih =>
    simp only [mergeColloc, List.foldl_cons] at ih ⊢
    rw [ih, hasKey_mergeEntry]
    simp only [hasKey]
    by_cases h : e.1 = k <;> simp [h]

theorem nodup_merge {lex c : Lexicon} (h : KeysNodup lex) : KeysNodup (mergeColloc lex c) := by
  induction c generalizing lex with
  | nil => exact h
  | cons e es ih =>
    simp only [mergeColloc, List.foldl_cons] at ih ⊢
    exact ih (nodup_dictSet h e.1 _)

theorem dictSet_self {lex : Lexicon} {k : String} (h : hasKey lex k = true) :
    dictSet lex k (getSet lex k) = lex := by
  induction lex with
  | nil => simp [hasKey] at h
  | cons e rest ih =>
    by_cases h1 : e.1 = k
    · simp only [dictSet, getSet, if_pos h1]
      rw [← h1, Prod.mk.eta]
    · simp only [dictSet, getSet, if_neg h1]
      rw [ih (by simpa [hasKey, h1] using h)]

theorem mergeEntry_noop {lex : Lexicon} {e : String × PSet}
    (hk : hasKey lex e.1 = true) (hs : ∀ x ∈ e.2, x ∈ getSet lex e.1) :
    mergeEntry lex e = lex := by
  unfold mergeEntry
  rw [foldl_setAdd_noop hs, dictSet_self hk]

theorem mergeColloc_noop {c : Lexicon} : ∀ {lex : Lexicon},
    (∀ e ∈ c, hasKey lex e.1 = true ∧ ∀ x ∈ e.2, x ∈ getSet lex e.1) →
    mergeColloc lex c = lex := by
  induction c with
  | nil => intro lex _; rfl
  | cons e es ih =>
    intro lex h
    have h1 := h e (by simp)
    simp only [mergeColloc, List.foldl_cons]
    rw [mergeEntry_noop h1.1 h1.2]
    exact ih fun e2 he2 => h e2 (by simp [he2])

theorem merge_idem (lex c : Lexicon) :
    mergeColloc (mergeColloc lex c) c = mergeColloc lex c := by
  apply mergeColloc_noop
  intro e he
  constructor
  · rw [hasKey_merge]
    have : hasKey c e.1 = true := hasKey_iff_mem_keys.mpr (List.mem_map.mpr ⟨e, he, rfl⟩)
    simp [this]
  · intro x hx
    rw [mem_getSet_merge]
    exact Or.inr ⟨e.2, by simpa [Prod.mk.eta] using he, hx⟩

/-! Lemmas about the manual edge insertion of add_partner. -/

theorem mem_getSet_addEdge {lex : Lexicon} {L pl : String} (hne : ¬ L = pl) {a x : String} :
    x ∈ getSet (addEdge lex L pl) a ↔
      x ∈ getSet lex a ∨ (a = L ∧ x = pl) ∨ (a = pl ∧ x = L) := by
  unfold addEdge
  rw [getSet_dictSet]
  by_cases h1 : pl = a
  · subst h1
    rw [if_pos rfl, getSet_dictSet, if_neg hne, mem_setAdd]
    constructor
    · rintro (hm | hb)
      · exact Or.inl hm
      · exact Or.inr (Or.inr ⟨rfl, hb⟩)
    · rintro (hm | ⟨hpa, -⟩ | ⟨-, hb⟩)
      · exact Or.inl hm
      · exact absurd hpa.symm hne
      · exact Or.inr hb
  · rw [if_neg h1, getSet_dictSet]
    by_cases h2 : L = a
    · subst h2
      rw [if_pos rfl, mem_setAdd]
      constructor
      · rintro (hm | hb)
        · exact Or.inl hm
        · exact Or.inr (Or.inl ⟨rfl, hb⟩)
      · rintro (hm | ⟨-, hb⟩ | ⟨hpa, -⟩)
        · exact Or.inl hm
        · exact Or.inr hb
        · exact absurd hpa.symm h1
    · rw [if_neg h2]
      constructor
      · exact fun hm => Or.inl hm
      · rintro (hm | ⟨hpa, -⟩ | ⟨hpa, -⟩)
        · exact hm
        · exact absurd hpa.symm h2
        · exact absurd hpa.symm h1

theorem hasKey_addEdge (lex : Lexicon) (L pl a : String) :
    hasKey (addEdge lex L pl) a =
      if pl = a then true else if L = a then true else hasKey lex a := by
  unfold addEdge
  rw [hasKey_dictSet, hasKey_dictSet]

theorem nodup_addEdge {lex : Lexicon} (h : KeysNodup lex) (L pl : String) :
    KeysNodup (addEdge lex L pl) :=
  nodup_dictSet (nodup_dictSet h L _) pl _

theorem sym_ensureKey {lex : Lexicon} (hs : Sym lex) (k : String) : Sym (ensureKey lex k) := by
  intro a b hm
  rw [getSet_ensureKey] at hm ⊢
  exact hs a b hm

theorem sym_addEdge {lex : Lexicon} {L pl : String} (hs : Sym lex) (hne : ¬ L = pl) :
    Sym (addEdge lex L pl) := by
  intro a x hm
  rw [mem_getSet_addEdge hne] at hm ⊢
  rcases hm with hm | ⟨ha, hx⟩ | ⟨ha, hx⟩
  · exact Or.inl (hs a x hm)
  · exact Or.inr (Or.inr ⟨hx, ha⟩)
  · exact Or.inr (Or.inl ⟨hx, ha⟩)

theorem noIso_add_full {lex : Lexicon} {L pl : String} (hn : NoIso lex) (_hne : ¬ L = pl) :
    NoIso (addEdge (ensureKey lex pl) L pl) := by
  intro k hk
  rw [hasKey_addEdge] at hk
  unfold addEdge
  rw [getSet_dictSet]
  by_cases h1 : pl = k
  · rw [if_pos h1]
    exact setAdd_ne_nil _ _
  · rw [if_neg h1, getSet_dictSet]
    by_cases h2 : L = k
    · rw [if_pos h2]
      exact setAdd_ne_nil _ _
    · rw [if_neg h2, getSet_ensureKey]
      rw [if_neg h1, if_neg h2, hasKey_ensureKey, if_neg h1] at hk
      exact hn k hk

/-- Case analysis on the result state of add_partner: either a validation
branch left the lexicon unchanged, or the pipeline reached the insertion
code, where the selected lemma being a key decides between the symmetric
insertion and the key-error crash state. -/
theorem addPartner_shape (env : Env) (lex : Lexicon) (L t : String) :
    (addPartner env lex L t).2 = lex ∨
    ∃ pl : String, ¬ L = pl ∧
      (((addPartner env lex L t).2 = addEdge (ensureKey lex pl) L pl ∧ hasKey lex L = true) ∨
       ((addPartner env lex L t).2 = ensureKey lex pl ∧ hasKey lex L = false)) := by
  unfold addPartner
  dsimp only
  split
  · exact Or.inl rfl
  · split
    · exact Or.inl rfl
    · rename_i p heq
      split
      · exact Or.inl rfl
      · split
        · exact Or.inl rfl
        · rename_i hself
          have hself2 : ¬ ruLowerStr p.normal_form = L := fun h => hself h.symm
          split
          · rename_i hk
            rw [hasKey_ensureKey, if_neg hself2] at hk
            exact Or.inr ⟨ruLowerStr p.normal_form, hself, Or.inl ⟨rfl, hk⟩⟩
          · rename_i hk
            rw [hasKey_ensureKey, if_neg hself2] at hk
            refine Or.inr ⟨ruLowerStr p.normal_form, hself, Or.inr ⟨rfl, ?_⟩⟩
            cases hx : hasKey lex L
            · rfl
            · exact absurd hx hk

theorem inv_addPartner {env : Env} {lex : Lexicon} {L t : String}
    (hnd : KeysNodup lex) (hs : Sym lex) (hn : NoIso lex) (hk : hasKey lex L = true) :
    KeysNodup (addPartner env lex L t).2 ∧ Sym (addPartner env lex L t).2 ∧
      NoIso (addPartner env lex L t).2 := by
  rcases addPartner_shape env lex L t with h | ⟨pl, hself, ⟨h2, -⟩ | ⟨-, hfalse⟩⟩
  · rw [h]
    exact ⟨hnd, hs, hn⟩
  · rw [h2]
    exact ⟨nodup_addEdge (nodup_ensureKey hnd pl) L pl,
      sym_addEdge (sym_ensureKey hs pl) hself, noIso_add_full hn hself⟩
  · rw [hfalse] at hk
    exact absurd hk (by simp)

/-! Lemmas about remove_partner.  The two deletions of empty entries are
analyzed through a generic prune-step characterization: a key is deleted
only when its set is already empty, so the step never changes any
lookup. -/

theorem prune_getSet {m : Lexicon} (hnd : KeysNodup m) (k a : String) :
    getSet (if hasKey m k ∧ getSet m k = [] then delKey m k else m) a = getSet m a := by
  split
  · rename_i hc
    rw [getSet_delKey hnd]
    by_cases h : k = a
    · rw [if_pos h, ← h, hc.2]
    · rw [if_neg h]
  · rfl

theorem prune_nodup {m : Lexicon} (hnd : KeysNodup m) (k : String) :
    KeysNodup (if hasKey m k ∧ getSet m k = [] then delKey m k else m) := by
  split
  · exact nodup_delKey hnd k
  · exact hnd

theorem prune_hasKey_imp {m : Lexicon} (hnd : KeysNodup m) (k a : String) :
    hasKey (if hasKey m k ∧ getSet m k = [] then delKey m k else m) a = true →
      hasKey m a = true := by
  split
  · intro h
    rw [hasKey_delKey hnd] at h
    by_cases hka : k = a
    · rw [if_pos hka] at h
      exact absurd h (by simp)
    · rwa [if_neg hka] at h
  · exact fun h => h

theorem prune_self {m : Lexicon} (hnd : KeysNodup m) (k : String) :
    hasKey (if hasKey m k ∧ getSet m k = [] then delKey m k else m) k = true →
      getSet (if hasKey m k ∧ getSet m k = [] then delKey m k else m) k ≠ [] := by
  split
  · rename_i hc
    intro h
    rw [hasKey_delKey hnd, if_pos rfl] at h
    exact absurd h (by simp)
  · rename_i hc
    intro hk hnil
    exact hc ⟨hk, hnil⟩

/-- Membership in the state after the two discards of lines 325-326:
exactly the old memberships minus the edge in both directions. -/
theorem mem_getSet_discard2 {lex : Lexicon} {L P a x : String} :
    x ∈ getSet (dictSet (dictSet lex L (setDiscard (getSet lex L) P)) P
        (setDiscard (getSet (dictSet lex L (setDiscard (getSet lex L) P)) P) L)) a ↔
      x ∈ getSet lex a ∧ ¬(a = L ∧ x = P) ∧ ¬(a = P ∧ x = L) := by
  rw [getSet_dictSet]
  by_cases h1 : P = a
  · subst h1
    rw [if_pos rfl, getSet_dictSet]
    by_cases h3 : L = P
    · subst h3
      rw [if_pos rfl]
      simp only [mem_setDiscard]
      tauto
    · rw [if_neg h3]
      have h3x : ¬ P = L := fun hh => h3 hh.symm
      simp only [mem_setDiscard]
      tauto
  · rw [if_neg h1, getSet_dictSet]
    by_cases h2 : L = a
    · subst h2
      rw [if_pos rfl]
      have h1x : ¬ L = P := fun hh => h1 hh.symm
      simp only [mem_setDiscard]
      tauto
    · rw [if_neg h2]
      have h1x : ¬ a = P := fun hh => h1 hh.symm
      have h2x : ¬ a = L := fun hh => h2 hh.symm
      tauto

/-- Under the preconditions the interface guarantees (both names are
keys), remove_partner succeeds and yields the state characterized here:
no crash, well-formed keys, memberships are the old ones minus the
removed edge, no new keys, and either endpoint key that survives has a
nonempty set. -/
theorem remove_result {lex : Lexicon} {L P : String} (hnd : KeysNodup lex)
    (hkL : hasKey lex L = true) (hkP : hasKey lex P = true) :
    (removePartner lex L P).1 = RemOutcome.ok ∧
    KeysNodup (removePartner lex L P).2 ∧
    (∀ a x, x ∈ getSet (removePartner lex L P).2 a ↔
      x ∈ getSet lex a ∧ ¬(a = L ∧ x = P) ∧ ¬(a = P ∧ x = L)) ∧
    (∀ a, hasKey (removePartner lex L P).2 a = true → hasKey lex a = true) ∧
    (hasKey (removePartner lex L P).2 L = true → getSet (removePartner lex L P).2 L ≠ []) ∧
    (hasKey (removePartner lex L P).2 P = true → getSet (removePartner lex L P).2 P ≠ []) := by
  have hkP1 : hasKey (dictSet lex L (setDiscard (getSet lex L) P)) P = true := by
    rw [hasKey_dictSet]
    by_cases h : L = P
    · rw [if_pos h]
    · rw [if_neg h]
      exact hkP
  have hndA : KeysNodup (dictSet lex L (setDiscard (getSet lex L) P)) :=
    nodup_dictSet hnd L _
  have hndB : KeysNodup (dictSet (dictSet lex L (setDiscard (getSet lex L) P)) P
      (setDiscard (getSet (dictSet lex L (setDiscard (getSet lex L) P)) P) L)) :=
    nodup_dictSet hndA P _
  have hndC := prune_nodup hndB L
  unfold removePartner
  rw [if_pos hkL]
  dsimp only
  rw [if_pos hkP1]
  dsimp only
  refine ⟨rfl, prune_nodup hndC P, ?_, ?_, ?_, ?_⟩
  · intro a x
    rw [prune_getSet hndC, prune_getSet hndB]
    exact mem_getSet_discard2
  · intro a ha
    have hB := prune_hasKey_imp hndB L a (prune_hasKey_imp hndC P a ha)
    rw [hasKey_dictSet, hasKey_dictSet] at hB
    by_cases h1 : P = a
    · exact h1 ▸ hkP
    · rw [if_neg h1] at hB
      by_cases h2 : L = a
      · exact h2 ▸ hkL
      · rwa [if_neg h2] at hB
  · intro hL
    rw [prune_getSet hndC]
    exact prune_self hndB L (prune_hasKey_imp hndC P L hL)
  · exact prune_self hndC P

theorem inv_removePartner {lex : Lexicon} {L P : String}
    (hnd : KeysNodup lex) (hs : Sym lex) (hn : NoIso lex)
    (hkL : hasKey lex L = true) (hP : P ∈ getSet lex L) :
    KeysNodup (removePartner lex L P).2 ∧ Sym (removePartner lex L P).2 ∧
      NoIso (removePartner lex L P).2 := by
  have hkP : hasKey lex P = true := hasKey_of_mem_getSet (hs L P hP)
  obtain ⟨-, hndR, hmem, hkey, hEL, hEP⟩ := remove_result hnd hkL hkP
  refine ⟨hndR, ?_, ?_⟩
  · intro a b hm
    rw [hmem] at hm ⊢
    obtain ⟨hab, h1, h2⟩ := hm
    refine ⟨hs a b hab, ?_, ?_⟩
    · rintro ⟨rfl, rfl⟩
      exact h2 ⟨rfl, rfl⟩
    · rintro ⟨rfl, rfl⟩
      exact h1 ⟨rfl, rfl⟩
  · intro k hk
    by_cases h1 : k = L
    · subst h1
      exact hEL hk
    · by_cases h2 : k = P
      · subst h2
        exact hEP hk
      · have hlk := hkey k hk
        have hne := hn k hlk
        obtain ⟨x, hx⟩ := List.exists_mem_of_ne_nil _ hne
        intro hnil
        have hmm : x ∈ getSet (removePartner lex L P).2 k :=
          (hmem k x).mpr ⟨hx, fun h => h1 h.1, fun h => h2 h.1⟩
        rw [hnil] at hmm
        exact absurd hmm (List.not_mem_nil x)

/-! Merge preserves the invariants. -/

theorem sym_merge {lex c : Lexicon} (hs : Sym lex) (hcn : KeysNodup c) (hcs : Sym c) :
    Sym (mergeColloc lex c) := by
  intro a b hm
  rw [mem_getSet_merge] at hm ⊢
  rcases hm with hm | ⟨ps, hps, hx⟩
  · exact Or.inl (hs a b hm)
  · have hb : b ∈ getSet c a := (mem_getSet_iff_entry hcn).mpr ⟨ps, hps, hx⟩
    have ha : a ∈ getSet c b := hcs a b hb
    exact Or.inr ((mem_getSet_iff_entry hcn).mp ha)

theorem noIso_merge {lex c : Lexicon} (hn : NoIso lex) (hcn : KeysNodup c) (hci : NoIso c) :
    NoIso (mergeColloc lex c) := by
  intro k hk
  simp only [hasKey_merge, Bool.or_eq_true] at hk
  intro hnil
  rcases hk with h | h
  · obtain ⟨x, hx⟩ := List.exists_mem_of_ne_nil _ (hn k h)
    have hmm : x ∈ getSet (mergeColloc lex c) k := mem_getSet_merge.mpr (Or.inl hx)
    rw [hnil] at hmm
    exact absurd hmm (List.not_mem_nil x)
  · obtain ⟨x, hx⟩ := List.exists_mem_of_ne_nil _ (hci k h)
    have hmm : x ∈ getSet (mergeColloc lex c) k :=
      mem_getSet_merge.mpr (Or.inr ((mem_getSet_iff_entry hcn).mp hx))
    rw [hnil] at hmm
    exact absurd hmm (List.not_mem_nil x)

/-- The master invariant of every reachable lexicon state: well-formed
keys, symmetric adjacency, and no isolated nodes. -/
theorem reachable_inv {lex : Lexicon} (h : Reachable lex) :
    KeysNodup lex ∧ Sym lex ∧ NoIso lex := by
  induction h with
  | empty =>
    refine ⟨List.nodup_nil, fun a b hm => ?_, fun k hk => ?_⟩
    · simp [getSet] at hm
    · simp [hasKey] at hk
  | mergeStep env text hr _hne ih =>
    obtain ⟨hnd, hs, hn⟩ := ih
    exact ⟨nodup_merge hnd,
      sym_merge hs (nodup_extract env text) (sym_extract env text),
      noIso_merge hn (nodup_extract env text) (noIso_extract env text)⟩
  | addStep env L t hr hk ih =>
    obtain ⟨hnd, hs, hn⟩ := ih
    exact inv_addPartner hnd hs hn hk
  | removeStep L P hr hk hp ih =>
    obtain ⟨hnd, hs, hn⟩ := ih
    exact inv_removePartner hnd hs hn hk hp
  | clearStep hr ih =>
    refine ⟨List.nodup_nil, fun a b hm => ?_, fun k hk => ?_⟩
    · simp [getSet] at hm
    · simp [hasKey] at hk

theorem notReject_ok : ¬ IsReject AddOutcome.ok := by
  rintro (h | h | h | h) <;> exact AddOutcome.noConfusion h

theorem notReject_crashed : ¬ IsReject AddOutcome.crashedKeyError := by
  rintro (h | h | h | h) <;> exact AddOutcome.noConfusion h

/-- Claim C4 (amended): add_partner rejects with a validation warning,
leaving the lexicon completely unchanged, exactly when the stripped and
lowercased partner input has length below 4 BEFORE normalization, or
normalization returns no analyses, or the normalized form is in the
stopword or manual-artifact set, or the normalized form equals the
selected lemma.  (The original claim said length below 4 after
normalization; the code checks the surface length only — see the
counterexample.) -/
theorem claim_C4_validation (env : Env) (lex : Lexicon) (L t : String) :
    (IsReject (addPartner env lex L t).1 ↔
      ((ruLowerStr (pyStrip t)).length < 4 ∨
       pickBest (env.parse (ruLowerStr (pyStrip t))) = none ∨
       ∃ p, pickBest (env.parse (ruLowerStr (pyStrip t))) = some p ∧
         (ruLowerStr p.normal_form ∈ env.stopwords ∨
          ruLowerStr p.normal_form ∈ artifactManual ∨
          ruLowerStr p.normal_form = L))) ∧
    (IsReject (addPartner env lex L t).1 → (addPartner env lex L t).2 = lex) := by
  unfold addPartner
  dsimp only
  split
  · rename_i hc
    refine ⟨⟨fun _ => ?_, fun _ => Or.inl rfl⟩, fun _ => rfl⟩
    rcases hc with hc | hc
    · exact Or.inl (by rw [hc]; decide)
    · exact Or.inl hc
  · rename_i hc
    split
    · rename_i heq
      exact ⟨⟨fun _ => Or.inr (Or.inl heq), fun _ => Or.inr (Or.inl rfl)⟩, fun _ => rfl⟩
    · rename_i p heq
      split
      · rename_i hstop
        refine ⟨⟨fun _ => ?_, fun _ => Or.inr (Or.inr (Or.inl rfl))⟩, fun _ => rfl⟩
        refine Or.inr (Or.inr ⟨p, heq, ?_⟩)
        rcases hstop with h | h
        · exact Or.inl h
        · exact Or.inr (Or.inl h)
      · rename_i hstop
        split
        · rename_i hself
          exact ⟨⟨fun _ => Or.inr (Or.inr ⟨p, heq, Or.inr (Or.inr hself.symm)⟩),
            fun _ => Or.inr (Or.inr (Or.inr rfl))⟩, fun _ => rfl⟩
        · rename_i hself
          have hno : ¬ ((ruLowerStr (pyStrip t)).length < 4 ∨
              pickBest (env.parse (ruLowerStr (pyStrip t))) = none ∨
              ∃ p2, pickBest (env.parse (ruLowerStr (pyStrip t))) = some p2 ∧
                (ruLowerStr p2.normal_form ∈ env.stopwords ∨
                 ruLowerStr p2.normal_form ∈ artifactManual ∨
                 ruLowerStr p2.normal_form = L)) := by
            rintro (h | h | ⟨p2, hp2, hcond⟩)
            · exact hc (Or.inr h)
            · rw [heq] at h
              exact Option.noConfusion h
            · rw [heq] at hp2
              have hpp : p2 = p := (Option.some.inj hp2).symm
              subst hpp
              rcases hcond with h | h | h
              · exact hstop (Or.inl h)
              · exact hstop (Or.inr h)
              · exact hself h.symm
          split
          · exact ⟨⟨fun hr => absurd hr notReject_ok, fun hcond => absurd hcond hno⟩,
              fun hr => absurd hr notReject_ok⟩
          · exact ⟨⟨fun hr => absurd hr notReject_crashed, fun hcond => absurd hcond hno⟩,
              fun hr => absurd hr notReject_crashed⟩

/-- Claim C5 (amended): whenever validation passes AND the selected
lemma is an existing key, add_partner succeeds and inserts the symmetric
edge between the lemma and the normalized partner, creating the partner
key if absent.  No hypothesis constrains the part-of-speech tag of the
selected analysis, so the category gate of extraction is not applied to
manual entries.  (The original claim also asserted creation of the
LEMMA key when absent; the code instead raises a key error there — see
the counterexample.) -/
theorem claim_C5_add_success (env : Env) (lex : Lexicon) (L t : String) (p : Analysis)
    (hkL : hasKey lex L = true)
    (hp : pickBest (env.parse (ruLowerStr (pyStrip t))) = some p)
    (hlen : 4 ≤ (ruLowerStr (pyStrip t)).length)
    (hstop : ruLowerStr p.normal_form ∉ env.stopwords)
    (hart : ruLowerStr p.normal_form ∉ artifactManual)
    (hself : ruLowerStr p.normal_form ≠ L) :
    (addPartner env lex L t).1 = AddOutcome.ok ∧
    ruLowerStr p.normal_form ∈ getSet (addPartner env lex L t).2 L ∧
    L ∈ getSet (addPartner env lex L t).2 (ruLowerStr p.normal_form) ∧
    hasKey (addPartner env lex L t).2 (ruLowerStr p.normal_form) = true := by
  have hL : ¬ L = ruLowerStr p.normal_form := fun h => hself h.symm
  have hcond1 : ¬ (ruLowerStr (pyStrip t) = "" ∨ (ruLowerStr (pyStrip t)).length < 4) := by
    rintro (h | h)
    · rw [h] at hlen
      exact absurd hlen (by decide)
    · omega
  unfold addPartner
  dsimp only
  rw [if_neg hcond1, hp]
  dsimp only
  rw [if_neg (show ¬ (ruLowerStr p.normal_form ∈ env.stopwords ∨
        ruLowerStr p.normal_form ∈ artifactManual) by
      rintro (h | h)
      · exact hstop h
      · exact hart h),
    if_neg hL,
    if_pos (show hasKey (ensureKey lex (ruLowerStr p.normal_form)) L = true by
      rw [hasKey_ensureKey, if_neg (fun hh => hL hh.symm)]
      exact hkL)]
  refine ⟨rfl, ?_, ?_, ?_⟩
  · rw [show (AddOutcome.ok, addEdge (ensureKey lex (ruLowerStr p.normal_form)) L
        (ruLowerStr p.normal_form)).2 = addEdge (ensureKey lex (ruLowerStr p.normal_form)) L
        (ruLowerStr p.normal_form) from rfl, mem_getSet_addEdge hL]
    exact Or.inr (Or.inl ⟨rfl, rfl⟩)
  · rw [show (AddOutcome.ok, addEdge (ensureKey lex (ruLowerStr p.normal_form)) L
        (ruLowerStr p.normal_form)).2 = addEdge (ensureKey lex (ruLowerStr p.normal_form)) L
        (ruLowerStr p.normal_form) from rfl, mem_getSet_addEdge hL]
    exact Or.inr (Or.inr ⟨rfl, rfl⟩)
  · rw [show (AddOutcome.ok, addEdge (ensureKey lex (ruLowerStr p.normal_form)) L
        (ruLowerStr p.normal_form)).2 = addEdge (ensureKey lex (ruLowerStr p.normal_form)) L
        (ruLowerStr p.normal_form) from rfl, hasKey_addEdge, if_pos rfl]

/-! Order lemmas for the export serialization. -/

theorem charsLe_total (a b : List Char) : charsLe a b = true ∨ charsLe b a = true := by
  induction a generalizing b with
  | nil => exact Or.inl rfl
  | cons x xs ih =>
    cases b with
    | nil => exact Or.inr rfl
    | cons y ys =>
      unfold charsLe
      by_cases h1 : x < y
      · left
        rw [if_pos h1]
      · by_cases h2 : y < x
        · right
          rw [if_pos h2]
        · rcases ih ys with h | h
          · left
            rw [if_neg h1, if_neg h2]
            exact h
          · right
            rw [if_neg h2, if_neg h1]
            exact h

theorem charsLe_trans : ∀ {a b c : List Char},
    charsLe a b = true → charsLe b c = true → charsLe a c = true := by
  intro a
  induction a with
  | nil => intro b c _ _; rfl
  | cons x xs ih =>
    intro b c h1 h2
    cases b with
    | nil => exact absurd h1 (by simp [charsLe])
    | cons y ys =>
      cases c with
      | nil => exact absurd h2 (by simp [charsLe])
      | cons z zs =>
        unfold charsLe at h1 h2 ⊢
        by_cases hxy : x < y
        · by_cases hyz : y < z
          · rw [if_pos (lt_trans hxy hyz)]
          · by_cases hzy : z < y
            · rw [if_neg hyz, if_pos hzy] at h2
              exact absurd h2 (by simp)
            · have he : y = z := le_antisymm (le_of_not_lt hzy) (le_of_not_lt hyz)
              subst he
              rw [if_pos hxy]
        · by_cases hyx : y < x
          · rw [if_neg hxy, if_pos hyx] at h1
            exact absurd h1 (by simp)
          · have he : x = y := le_antisymm (le_of_not_lt hyx) (le_of_not_lt hxy)
            subst he
            by_cases hxz : x < z
            · rw [if_pos hxz]
            · by_cases hzx : z < x
              · rw [if_neg hxz, if_pos hzx] at h2
                exact absurd h2 (by simp)
              · have he2 : x = z := le_antisymm (le_of_not_lt hzx) (le_of_not_lt hxz)
                subst he2
                rw [if_neg (lt_irrefl _), if_neg (lt_irrefl _)] at h1 h2
                rw [if_neg (lt_irrefl _), if_neg (lt_irrefl _)]
                exact ih h1 h2

theorem strLe_total (a b : String) : strLe a b = true ∨ strLe b a = true :=
  charsLe_total a.data b.data

theorem strLe_trans {a b c : String} (h1 : strLe a b = true) (h2 : strLe b c = true) :
    strLe a c = true :=
  charsLe_trans h1 h2

theorem mem_insertLe {x y : String} {l : List String} :
    y ∈ insertLe x l ↔ y = x ∨ y ∈ l := by
  induction l with
  | nil => simp [insertLe]
  | cons z zs ih =>
    unfold insertLe
    split
    · simp only [List.mem_cons]
    · simp only [List.mem_cons, ih]
      tauto

theorem pairwise_insertLe {x : String} {l : List String}
    (h : List.Pairwise (fun a b => strLe a b = true) l) :
    List.Pairwise (fun a b => strLe a b = true) (insertLe x l) := by
  induction l with
  | nil => simp [insertLe]
  | cons z zs ih =>
    obtain ⟨hz, hzs⟩ := List.pairwise_cons.mp h
    unfold insertLe
    split
    · rename_i hxz
      refine List.Pairwise.cons ?_ h
      intro y hy
      rcases List.mem_cons.mp hy with rfl | hy2
      · exact hxz
      · exact strLe_trans hxz (hz y hy2)
    · rename_i hxz
      refine List.Pairwise.cons ?_ (ih hzs)
      intro y hy
      rcases mem_insertLe.mp hy with rfl | hy2
      · rcases strLe_total y z with h | h
        · exact absurd h hxz
        · exact h
      · exact hz y hy2

theorem pairwise_sortedPartners (l : List String) :
    List.Pairwise (fun a b => strLe a b = true) (sortedPartners l) := by
  induction l with
  | nil => simp [sortedPartners]
  | cons x xs ih => exact pairwise_insertLe ih

theorem keys_serializeLexicon (lex : Lexicon) :
    (serializeLexicon lex).map Prod.fst = keys lex := by
  induction lex with
  | nil => rfl
  | cons e rest ih =>
    simp only [serializeLexicon, keys, List.map_cons] at ih ⊢
    rw [ih]

/-! The claims. -/

/-- Claim C1: symmetry invariant — for every lexicon state reachable from
the empty lexicon via merge-of-an-extraction-result, add_link,
remove_link and clear, and for all lemmas A and B, B is a partner of A
exactly when A is a partner of B. -/
theorem claim_C1_symmetry {lex : Lexicon} (h : Reachable lex) (a b : String) :
    b ∈ getSet lex a ↔ a ∈ getSet lex b :=
  ⟨fun hm => (reachable_inv h).2.1 a b hm, fun hm => (reachable_inv h).2.1 b a hm⟩

theorem claim_C1_witness :
    ("бежать" ∈ getSet lexDog "собака" ↔ "собака" ∈ getSet lexDog "бежать") ∧
      "бежать" ∈ getSet lexDog "собака" :=
  ⟨claim_C1_symmetry (Reachable.mergeStep envRu "собака бежит" Reachable.empty (by decide))
      "собака" "бежать", by decide⟩

/-- Claim C2: sentence-boundary isolation — every edge of the candidate
mapping is witnessed by a consecutive pair inside the lemma sequence of a
single sentence, so no edge joins lemmas of distinct sentences; in
particular, for the two-sentence document of the specification no edge
joins a lemma of sentence 1 with a lemma of sentence 2. -/
theorem claim_C2_sentence_isolation :
    (∀ (env : Env) (text a b : String),
      b ∈ getSet (extract_collocations env text) a →
        ∃ sent ∈ env.segment (ruLowerStr text),
          ∃ p ∈ consecPairs (sentLemmas env sent),
            (p.1 = a ∧ b = p.2) ∨ (p.2 = a ∧ b = p.1)) ∧
    (∀ a ∈ sentLemmas envRu "кошка спит.", ∀ b ∈ sentLemmas envRu "собака бежит.",
      ¬ b ∈ getSet (extract_collocations envRu docCats) a) := by
  constructor
  · intro env text a b hm
    obtain ⟨sent, hsent, p, hp, -, hab⟩ := mem_getSet_extract.mp hm
    exact ⟨sent, hsent, p, hp, hab⟩
  · decide

theorem claim_C2_witness :
    "спать" ∈ getSet (extract_collocations envRu docCats) "кошка" ∧
    ∃ sent ∈ envRu.segment (ruLowerStr docCats),
      ∃ p ∈ consecPairs (sentLemmas envRu sent),
        (p.1 = "кошка" ∧ "спать" = p.2) ∨ (p.2 = "кошка" ∧ "спать" = p.1) :=
  ⟨by decide, claim_C2_sentence_isolation.1 envRu docCats "кошка" "спать" (by decide)⟩

/-- Claim C3: error contract of extract — the loading pipeline raises the
content error exactly when the document strips to the empty string, and
on every other input it succeeds with the (possibly empty) candidate
mapping of extract_collocations. -/
theorem claim_C3_error_contract (env : Env) (text : String) :
    ((∃ e, extractDoc env text = Except.error e) ↔ pyStrip text = "") ∧
    (pyStrip text ≠ "" → extractDoc env text = Except.ok (extract_collocations env text)) := by
  unfold extractDoc
  constructor
  · constructor
    · rintro ⟨e, he⟩
      by_cases h : pyStrip text = ""
      · exact h
      · rw [if_neg h] at he
        exact Except.noConfusion he
    · intro h
      rw [if_pos h]
      exact ⟨ContentError.emptyDocument, rfl⟩
  · intro h
    rw [if_neg h]

theorem claim_C3_witness :
    pyStrip "я и ты" ≠ "" ∧ extractDoc envRu "я и ты" = Except.ok [] ∧
      extractDoc envRu " " = Except.error ContentError.emptyDocument := by
  refine ⟨by decide, ?_, ?_⟩
  · rw [(claim_C3_error_contract envRu "я и ты").2 (by decide)]
    exact congrArg Except.ok (by decide)
  · obtain ⟨e, he⟩ := ((claim_C3_error_contract envRu " ").1).mpr (by decide)
    cases e
    exact he

theorem claim_C4_witness :
    (IsReject (addPartner envRu lexBook "книга" "книга").1 ∧
      (addPartner envRu lexBook "книга" "книга").2 = lexBook) ∧
    IsReject (addPartner envRu lexBook "книга" "чтобы").1 := by
  have h1 := claim_C4_validation envRu lexBook "книга" "книга"
  have h2 := claim_C4_validation envRu lexBook "книга" "чтобы"
  have hr1 : IsReject (addPartner envRu lexBook "книга" "книга").1 :=
    h1.1.mpr (Or.inr (Or.inr ⟨⟨"книга", some "NOUN", 100⟩, by decide,
      Or.inr (Or.inr (by decide))⟩))
  have hr2 : IsReject (addPartner envRu lexBook "книга" "чтобы").1 :=
    h2.1.mpr (Or.inr (Or.inr ⟨⟨"чтобы", some "CONJ", 100⟩, by decide, Or.inl (by decide)⟩))
  exact ⟨⟨hr1, h1.2 hr1⟩, hr2⟩

/-- Claim C4 counterexample: for the surface word дома (length 4) the
selected analysis normalizes to дом, whose length is 3 < 4; the claimed
reject condition (length below 4 after normalization) therefore holds,
yet add_partner accepts the word and inserts the edge — the length gate
of the code runs before normalization, not after. -/
theorem claim_C4_counterexample :
    (∃ p, pickBest (envRu.parse (ruLowerStr (pyStrip "дома"))) = some p ∧
      ruLowerStr p.normal_form = "дом") ∧
    ("дом" : String).length < 4 ∧
    (addPartner envRu lexBook "книга" "дома").1 = AddOutcome.ok ∧
    "дом" ∈ getSet (addPartner envRu lexBook "книга" "дома").2 "книга" :=
  ⟨⟨⟨"дом", some "NOUN", 75⟩, by decide, by decide⟩, by decide, by decide, by decide⟩

theorem claim_C5_witness :
    (addPartner envNoPos lexBook "книга" "тест").1 = AddOutcome.ok ∧
    "тест" ∈ getSet (addPartner envNoPos lexBook "книга" "тест").2 "книга" ∧
    "книга" ∈ getSet (addPartner envNoPos lexBook "книга" "тест").2 "тест" ∧
    hasKey (addPartner envNoPos lexBook "книга" "тест").2 "тест" = true := by
  have h := claim_C5_add_success envNoPos lexBook "книга" "тест" ⟨"тест", none, 100⟩
    (by decide) (by decide) (by decide) (by decide) (by decide) (by decide)
  have e : ruLowerStr (Analysis.mk "тест" none 100).normal_form = "тест" := by decide
  rw [e] at h
  exact h

/-- Claim C5 counterexample: with the lemma кошка absent from the
lexicon and a partner that passes every validation step, add_partner
does not create the lemma key — it raises the key error after having
already created the partner key with an empty set. -/
theorem claim_C5_counterexample :
    (addPartner envRu [] "кошка" "собака").1 = AddOutcome.crashedKeyError ∧
    hasKey (addPartner envRu [] "кошка" "собака").2 "кошка" = false ∧
    hasKey (addPartner envRu [] "кошка" "собака").2 "собака" = true ∧
    getSet (addPartner envRu [] "кошка" "собака").2 "собака" = [] := by
  decide

/-- Claim C6: idempotent merge — merging the extraction result of the
same document twice yields exactly the lexicon obtained by merging it
once, for every document and every starting lexicon state. -/
theorem claim_C6_merge_idempotent (env : Env) (text : String) (lex : Lexicon) :
    mergeColloc (mergeColloc lex (extract_collocations env text))
        (extract_collocations env text) =
      mergeColloc lex (extract_collocations env text) :=
  merge_idem lex (extract_collocations env text)

/-- Claim C7: no-isolated-nodes invariant with remove-time pruning — in
every reachable lexicon state a key exists only with a nonempty partner
set, and removing the only edge A-B of a two-node lexicon yields the
empty lexicon with both keys gone. -/
theorem claim_C7_no_isolated_nodes :
    (∀ lex : Lexicon, Reachable lex → ∀ k, hasKey lex k = true → getSet lex k ≠ []) ∧
    (∀ A B : String, ¬ A = B →
      removePartner [(A, [B]), (B, [A])] A B = (RemOutcome.ok, ([] : Lexicon))) := by
  constructor
  · intro lex h k hk
    exact (reachable_inv h).2.2 k hk
  · intro A B hAB
    have hBA : ¬ B = A := fun h => hAB h.symm
    simp [removePartner, hasKey, getSet, dictSet, delKey, setDiscard, hAB, hBA]

theorem claim_C7_witness :
    (hasKey lexDog "собака" = true ∧ getSet lexDog "собака" ≠ []) ∧
      removePartner [("кошка", ["спать"]), ("спать", ["кошка"])] "кошка" "спать" =
        (RemOutcome.ok, ([] : Lexicon)) := by
  refine ⟨⟨by decide, ?_⟩, ?_⟩
  · exact claim_C7_no_isolated_nodes.1 lexDog
      (Reachable.mergeStep envRu "собака бежит" Reachable.empty (by decide)) "собака" (by decide)
  · exact claim_C7_no_isolated_nodes.2 "кошка" "спать" (by decide)

/-- Claim C8: pair-emission rule — a consecutive pair of a sentence
lemma sequence is inserted symmetrically whenever the two lemmas differ
and both have length at least 4; conversely every edge of the candidate
mapping comes from such a pair, so all keys and members have length at
least 4. -/
theorem claim_C8_pair_emission :
    (∀ (env : Env) (text sent : String), sent ∈ env.segment (ruLowerStr text) →
      ∀ p ∈ consecPairs (sentLemmas env sent), p.1 ≠ p.2 →
        4 ≤ p.1.length → 4 ≤ p.2.length →
        p.2 ∈ getSet (extract_collocations env text) p.1 ∧
          p.1 ∈ getSet (extract_collocations env text) p.2) ∧
    (∀ (env : Env) (text a b : String), b ∈ getSet (extract_collocations env text) a →
      a ≠ b ∧ 4 ≤ a.length ∧ 4 ≤ b.length) ∧
    (∀ (env : Env) (text k : String), hasKey (extract_collocations env text) k = true →
      4 ≤ k.length) := by
  have part2 : ∀ (env : Env) (text a b : String),
      b ∈ getSet (extract_collocations env text) a →
        a ≠ b ∧ 4 ≤ a.length ∧ 4 ≤ b.length := by
    intro env text a b hm
    obtain ⟨sent, -, p, -, hc, hab⟩ := mem_getSet_extract.mp hm
    obtain ⟨hne, hl1, hl2⟩ := hc
    rcases hab with ⟨h1, h2⟩ | ⟨h1, h2⟩
    · subst h1
      subst h2
      exact ⟨fun h => hne h, hl1, hl2⟩
    · subst h1
      subst h2
      exact ⟨fun h => hne h.symm, hl2, hl1⟩
  refine ⟨?_, part2, ?_⟩
  · intro env text sent hsent p hp hne hl1 hl2
    constructor
    · exact mem_getSet_extract.mpr ⟨sent, hsent, p, hp, ⟨hne, hl1, hl2⟩, Or.inl ⟨rfl, rfl⟩⟩
    · exact mem_getSet_extract.mpr ⟨sent, hsent, p, hp, ⟨hne, hl1, hl2⟩, Or.inr ⟨rfl, rfl⟩⟩
  · intro env text k hk
    obtain ⟨b, hb⟩ := List.exists_mem_of_ne_nil _ (noIso_extract env text k hk)
    exact (part2 env text k b hb).2.1

theorem claim_C8_witness :
    ("кошка", "спать") ∈ consecPairs (sentLemmas envRu "кошка спит.") ∧
    "спать" ∈ getSet (extract_collocations envRu docCats) "кошка" ∧
    "кошка" ∈ getSet (extract_collocations envRu docCats) "спать" ∧
    ("кошка" ≠ "спать" ∧ 4 ≤ ("кошка" : String).length ∧ 4 ≤ ("спать" : String).length) := by
  refine ⟨by decide, ?_, ?_, ?_⟩
  · exact (claim_C8_pair_emission.1 envRu docCats "кошка спит." (by decide)
      ("кошка", "спать") (by decide) (by decide) (by decide) (by decide)).1
  · exact (claim_C8_pair_emission.1 envRu docCats "кошка спит." (by decide)
      ("кошка", "спать") (by decide) (by decide) (by decide) (by decide)).2
  · exact claim_C8_pair_emission.2.1 envRu docCats "кошка" "спать" (by decide)

/-- Claim C9 (amended): the export serializes every partner set as a
sorted sequence, while the lemma entries keep the insertion order of the
lexicon mapping (the code never sorts the keys). -/
theorem claim_C9_export (lex : Lexicon) (_hne : lex ≠ []) :
    (serializeLexicon lex).map Prod.fst = keys lex ∧
      ∀ e ∈ serializeLexicon lex, List.Pairwise (fun a b => strLe a b = true) e.2 := by
  refine ⟨keys_serializeLexicon lex, ?_⟩
  intro e he
  obtain ⟨e0, -, rfl⟩ := List.mem_map.mp he
  exact pairwise_sortedPartners e0.2

theorem claim_C9_witness :
    lexDog ≠ [] ∧ (serializeLexicon lexDog).map Prod.fst = keys lexDog ∧
      ∀ e ∈ serializeLexicon lexDog, List.Pairwise (fun a b => strLe a b = true) e.2 := by
  refine ⟨by decide, (claim_C9_export lexDog (by decide)).1, (claim_C9_export lexDog (by decide)).2⟩

/-- Claim C9 counterexample: a reachable nonempty lexicon whose
serialized entries are not sorted by lemma text — собака was inserted
before бежать, and the export keeps that order. -/
theorem claim_C9_counterexample :
    Reachable lexDog ∧ lexDog ≠ [] ∧
      ¬ List.Pairwise (fun a b => strLe a b = true) ((serializeLexicon lexDog).map Prod.fst) := by
  refine ⟨Reachable.mergeStep envRu "собака бежит" Reachable.empty (by decide), by decide, ?_⟩
  decide

/-- Claim C10: implicit safety of remove_link — under the symmetry
invariant, if the partner is currently a member of the partner set of
the lemma, then both dictionary indexings hit existing keys and the
operation completes without a missing-key error. -/
theorem claim_C10_remove_safety {lex : Lexicon} {L P : String}
    (hs : Sym lex) (hP : P ∈ getSet lex L) :
    hasKey lex L = true ∧ hasKey lex P = true ∧
      (removePartner lex L P).1 = RemOutcome.ok := by
  have hkL : hasKey lex L = true := hasKey_of_mem_getSet hP
  have hkP : hasKey lex P = true := hasKey_of_mem_getSet (hs L P hP)
  refine ⟨hkL, hkP, ?_⟩
  have hkP1 : hasKey (dictSet lex L (setDiscard (getSet lex L) P)) P = true := by
    rw [hasKey_dictSet]
    by_cases h : L = P
    · rw [if_pos h]
    · rw [if_neg h]
      exact hkP
  unfold removePartner
  rw [if_pos hkL]
  dsimp only
  rw [if_pos hkP1]

theorem claim_C10_witness :
    hasKey lexDog "собака" = true ∧ hasKey lexDog "бежать" = true ∧
      (removePartner lexDog "собака" "бежать").1 = RemOutcome.ok :=
  claim_C10_remove_safety
    ((reachable_inv (Reachable.mergeStep envRu "собака бежит" Reachable.empty (by decide))).2.1)
    (by decide)

end CollocDict
